import Mathlib

set_option linter.all false

/-! Shallow embedding of the HTML renderer in
`src/components/rendering/src/ast_html.rs`.  Rust `String` buffers are
modelled as `List Char`; the byte level (`str::as_bytes`) as `List Nat`
via UTF-8 encoding.  The two panics (`unreachable!` on structural
`Start`/`End` items and `panic!` on any other unexpected event) are
modelled by `Option`: a render step returns `none` where the Rust code
aborts. -/

def str (s : String) : List Char := s.data

/-- UTF-8 encoding of a single character, as bytes (each `< 256`).  This is
how a Rust `String` stores the characters pushed into it. -/
def utf8Bytes (c : Char) : List Nat :=
  let n := c.toNat
  if n < 128 then [n]
  else if n < 2048 then [192 + n / 64, 128 + n % 64]
  else if n < 65536 then [224 + n / 4096, 128 + n / 64 % 64, 128 + n % 64]
  else [240 + n / 262144, 128 + n / 4096 % 64, 128 + n / 64 % 64, 128 + n % 64]

/-- The bytes of a string (Rust `str::as_bytes`). -/
def strBytes : List Char → List Nat
  | [] => []
  | c :: rest => utf8Bytes c ++ strBytes rest

/-- `enum TagType { Opening, Closing }`; the render context stores an
`Option TagType` (the direction flag: `Opening`, `Closing` or `None`). -/
inductive TagType where
  | opening
  | closing
  deriving DecidableEq

/-- `struct Context { tag_type: Option<TagType>, footnote_indices: HashMap<Cow<str>, usize> }`.
The `HashMap` is modelled as an association list in insertion order; the
code only uses lookup, vacant-entry insert and `len`, none of which
depend on hashing. -/
structure Context where
  tag_type : Option TagType
  footnote_indices : List (List Char × Nat)
  deriving DecidableEq

/-- `Context::new()`. -/
def Context.new : Context := ⟨none, []⟩

/-- Association-list lookup, standing for `HashMap` key lookup. -/
def lookupId : List (List Char × Nat) → List Char → Option Nat
  | [], _ => none
  | (k, v) :: rest, i => if k = i then some v else lookupId rest i

/-- `Context::render_tag`: pushes `<{closer}{tag}>` where the closer is
`/` exactly when the direction flag is `Some(Closing)` (the `_` arm of
the Rust match covers both `Some(Opening)` and `None`). -/
def Context.render_tag (ctx : Context) (tag : List Char) (buf : List Char) : List Char :=
  let tag_closer : List Char :=
    match ctx.tag_type with
    | some TagType.closing => str "/"
    | _ => []
  buf ++ (str "<" ++ tag_closer ++ tag ++ str ">")

/-- `Context::render_nested_tags`: on `Opening` renders each tag in listed
order, on `Closing` renders each tag in reverse order, on `None` does
nothing. -/
def Context.render_nested_tags (ctx : Context) (tags : List (List Char)) (buf : List Char) : List Char :=
  match ctx.tag_type with
  | some TagType.opening => tags.foldl (fun b t => ctx.render_tag t b) buf
  | some TagType.closing => tags.reverse.foldl (fun b t => ctx.render_tag t b) buf
  | none => buf

/-- `Context::get_footnote_index`: computes `len + 1` first, then
`entry(id).or_insert(num_footnotes)` — returns the existing binding if
present, otherwise inserts `len + 1`.  Returns the index together with
the updated context (`&mut self`). -/
def Context.get_footnote_index (ctx : Context) (i : List Char) : Nat × Context :=
  let num_footnotes := ctx.footnote_indices.length + 1
  match lookupId ctx.footnote_indices i with
  | some n => (n, ctx)
  | none =>
    (num_footnotes,
     { ctx with footnote_indices := ctx.footnote_indices ++ [(i, num_footnotes)] })

/-- The per-byte expansion inside `escape_html`'s loop: the five entity
substitutions, any other byte written via `buf.write_char(*c as char)`,
i.e. as the single character whose code point is the byte's value. -/
def escByte (b : Nat) : List Char :=
  if b = 34 then str "&quot;"
  else if b = 38 then str "&amp;"
  else if b = 39 then str "&#47;"
  else if b = 60 then str "&lt;"
  else if b = 62 then str "&gt;"
  else [Char.ofNat b]

/-- `escape_html`: iterates over the input's bytes, appending each byte's
expansion to the buffer.  The `fmt::Result` is always `Ok` for a `String`
sink, so the function is modelled as total. -/
def escape_html (buf : List Char) : List Nat → List Char
  | [] => buf
  | b :: rest => escape_html (buf ++ escByte b) rest

/-- `Context::render_footnote_reference`. -/
def Context.render_footnote_reference (ctx : Context) (i : List Char) (buf : List Char) :
    Context × List Char :=
  let buf := buf ++ str "<sup class=\"footnote-reference\"><a href=\"#"
  let buf := escape_html buf (strBytes i)
  let buf := buf ++ str "\">"
  let g := ctx.get_footnote_index i
  let buf := buf ++ (Nat.repr g.1).data
  let buf := buf ++ str "</a></sup>"
  (g.2, buf)

/-- `Context::render_footnote_definition`. -/
def Context.render_footnote_definition (ctx : Context) (i : List Char) (buf : List Char) :
    Context × List Char :=
  match ctx.tag_type with
  | some TagType.opening =>
    let buf := buf ++ str "<div class=\"footnote-definition\" id=\""
    let buf := escape_html buf (strBytes i)
    let buf := buf ++ str "\"><sup class=\"footnote-definition-label\">"
    let g := ctx.get_footnote_index i
    let buf := buf ++ (Nat.repr g.1).data
    let buf := buf ++ str "</sup>\n"
    (g.2, buf)
  | some TagType.closing => (ctx, buf ++ str "</div>")
  | none => (ctx, buf)

/-- `pulldown_cmark::Tag`, restricted to the variants the renderer
distinguishes; `rule` and `emphasis` stand for the remaining variants,
all handled by the `_ => ()` arm. -/
inductive Tag where
  | paragraph
  | header (level : Nat)
  | codeBlock (info : List Char)
  | footnoteDefinition (i : List Char)
  | rule
  | emphasis
  deriving DecidableEq

/-- `pulldown_cmark::Event` (`End` is spelled `endTag`). -/
inductive Event where
  | text (s : List Char)
  | html (s : List Char)
  | inlineHtml (s : List Char)
  | footnoteReference (i : List Char)
  | start (t : Tag)
  | endTag (t : Tag)
  | softBreak
  | hardBreak
  deriving DecidableEq

/-- `impl IntoHtml for Tag`. -/
def Tag.render (t : Tag) (ctx : Context) (buf : List Char) : Context × List Char :=
  match t with
  | Tag.paragraph => (ctx, ctx.render_tag (str "p") buf)
  | Tag.header n => (ctx, ctx.render_tag (str "h" ++ (Nat.repr n).data) buf)
  | Tag.codeBlock _ => (ctx, ctx.render_nested_tags [str "pre", str "code"] buf)
  | Tag.footnoteDefinition i => ctx.render_footnote_definition i buf
  | _ => (ctx, buf)

/-- `impl IntoHtml for Event`: `Text`, `Html` and `InlineHtml` are pushed
verbatim; `Start`/`End` hit `unreachable!` and the remaining variants hit
`panic!`, both modelled as `none`. -/
def Event.render (e : Event) (ctx : Context) (buf : List Char) : Option (Context × List Char) :=
  match e with
  | Event.text s => some (ctx, buf ++ s)
  | Event.html s => some (ctx, buf ++ s)
  | Event.inlineHtml s => some (ctx, buf ++ s)
  | Event.footnoteReference i => some (ctx.render_footnote_reference i buf)
  | Event.start _ => none
  | Event.endTag _ => none
  | Event.softBreak => none
  | Event.hardBreak => none

mutual
/-- `Node`: a `Block(Tag, Content)` or an `Item(Event)`. -/
inductive Node where
  | block : Tag → Content → Node
  | item : Event → Node
/-- `Content`: the (finite) sequence of nodes produced by the tree
builder, consumed in order. -/
inductive Content where
  | nil : Content
  | cons : Node → Content → Content
end

mutual
/-- `impl IntoHtml for Node`. -/
def Node.render : Node → Context → List Char → Option (Context × List Char)
  | Node.block t c, ctx, buf =>
    let p1 := t.render { ctx with tag_type := some TagType.opening } buf
    match Content.render c { p1.1 with tag_type := none } p1.2 with
    | none => none
    | some p2 =>
      let p3 := t.render { p2.1 with tag_type := some TagType.closing } p2.2
      some ({ p3.1 with tag_type := none }, p3.2 ++ ['\n'])
  | Node.item e, ctx, buf => e.render ctx buf
/-- `impl IntoHtml for Content`: renders every node in order. -/
def Content.render : Content → Context → List Char → Option (Context × List Char)
  | Content.nil, ctx, buf => some (ctx, buf)
  | Content.cons n rest, ctx, buf =>
    match n.render ctx buf with
    | none => none
    | some p => Content.render rest p.1 p.2
end

/-- `into_html`: builds a fresh context and renders the whole sequence
into the buffer. -/
def into_html (content : Content) (buf : List Char) : Option (List Char) :=
  (Content.render content Context.new buf).map (fun p => p.2)

/-- The footnote-index calls made during one render, abstracted as the
list of identifiers in encounter order (used to state the ordering
property of `Context.get_footnote_index`). -/
def processIds (ctx : Context) : List (List Char) → Context
  | [] => ctx
  | i :: rest => processIds (ctx.get_footnote_index i).2 rest

/-- Character-level unfolding of `escape_html` on an empty buffer:
the concatenation of the per-byte expansions. -/
def escPieces : List Nat → List Char
  | [] => []
  | b :: rest => escByte b ++ escPieces rest

/-- The escaper as read by the specification, at byte level: the five
entity substitutions and every other byte copied to the output verbatim,
byte-for-byte. -/
def specEscapeBytes : List Nat → List Nat
  | [] => []
  | b :: rest =>
    (if b = 34 then strBytes (str "&quot;")
     else if b = 38 then strBytes (str "&amp;")
     else if b = 39 then strBytes (str "&#47;")
     else if b = 60 then strBytes (str "&lt;")
     else if b = 62 then strBytes (str "&gt;")
     else [b]) ++ specEscapeBytes rest

/-- Opening markup for a list of tag names, in listed order. -/
def openTagsMarkup : List (List Char) → List Char
  | [] => []
  | t :: rest => (str "<" ++ t ++ str ">") ++ openTagsMarkup rest

/-- Closing markup for a list of tag names, in listed order. -/
def closeTagsMarkup : List (List Char) → List Char
  | [] => []
  | t :: rest => (str "</" ++ t ++ str ">") ++ closeTagsMarkup rest

/-- Invariant of the footnote map: every recorded index is at most the
number of recorded identifiers. -/
def BoundedIdx (ctx : Context) : Prop :=
  ∀ p ∈ ctx.footnote_indices, p.2 ≤ ctx.footnote_indices.length

theorem escape_html_eq_escPieces : ∀ (bs : List Nat) (buf : List Char),
    escape_html buf bs = buf ++ escPieces bs
  | [], buf => by simp [escape_html, escPieces]
  | b :: rest, buf => by
    simp only [escape_html, escPieces]
    rw [escape_html_eq_escPieces rest]
    simp [List.append_assoc]

theorem strBytes_append : ∀ (l1 l2 : List Char),
    strBytes (l1 ++ l2) = strBytes l1 ++ strBytes l2
  | [], l2 => by simp [strBytes]
  | c :: rest, l2 => by
    show utf8Bytes c ++ strBytes (rest ++ l2) = (utf8Bytes c ++ strBytes rest) ++ strBytes l2
    rw [strBytes_append rest l2, List.append_assoc]

theorem render_tag_append (ctx : Context) (tag buf : List Char) :
    ctx.render_tag tag buf = buf ++ ctx.render_tag tag [] := by
  simp [Context.render_tag]

theorem foldl_render_tag_opening (fi : List (List Char × Nat)) :
    ∀ (tags : List (List Char)) (buf : List Char),
      tags.foldl (fun b t => Context.render_tag ⟨some TagType.opening, fi⟩ t b) buf
        = buf ++ openTagsMarkup tags
  | [], buf => by simp [openTagsMarkup]
  | t :: rest, buf => by
    simp only [List.foldl_cons, openTagsMarkup]
    rw [foldl_render_tag_opening fi rest]
    simp [Context.render_tag, List.append_assoc]

theorem foldl_render_tag_closing (fi : List (List Char × Nat)) :
    ∀ (tags : List (List Char)) (buf : List Char),
      tags.foldl (fun b t => Context.render_tag ⟨some TagType.closing, fi⟩ t b) buf
        = buf ++ closeTagsMarkup tags
  | [], buf => by simp [closeTagsMarkup]
  | t :: rest, buf => by
    simp only [List.foldl_cons, closeTagsMarkup]
    rw [foldl_render_tag_closing fi rest]
    simp [Context.render_tag, str, List.append_assoc]

theorem render_nested_tags_append (ctx : Context) (tags : List (List Char)) (buf : List Char) :
    ctx.render_nested_tags tags buf = buf ++ ctx.render_nested_tags tags [] := by
  obtain ⟨d, fi⟩ := ctx
  match d with
  | none => simp [Context.render_nested_tags]
  | some TagType.opening =>
    simp only [Context.render_nested_tags]
    rw [foldl_render_tag_opening fi tags buf, foldl_render_tag_opening fi tags []]
    simp
  | some TagType.closing =>
    simp only [Context.render_nested_tags]
    rw [foldl_render_tag_closing fi tags.reverse buf, foldl_render_tag_closing fi tags.reverse []]
    simp

theorem get_footnote_index_tag_type (ctx : Context) (i : List Char) :
    (ctx.get_footnote_index i).2.tag_type = ctx.tag_type := by
  simp only [Context.get_footnote_index]
  cases lookupId ctx.footnote_indices i <;> rfl

theorem render_footnote_reference_append (ctx : Context) (i buf : List Char) :
    ctx.render_footnote_reference i buf
      = ((ctx.render_footnote_reference i []).1,
         buf ++ (ctx.render_footnote_reference i []).2) := by
  simp [Context.render_footnote_reference, escape_html_eq_escPieces, List.append_assoc]

theorem render_footnote_definition_append (ctx : Context) (i buf : List Char) :
    ctx.render_footnote_definition i buf
      = ((ctx.render_footnote_definition i []).1,
         buf ++ (ctx.render_footnote_definition i []).2) := by
  obtain ⟨d, fi⟩ := ctx
  match d with
  | none => simp [Context.render_footnote_definition]
  | some TagType.opening =>
    simp [Context.render_footnote_definition, escape_html_eq_escPieces, List.append_assoc]
  | some TagType.closing =>
    simp [Context.render_footnote_definition]

theorem tag_render_append (t : Tag) (ctx : Context) (buf : List Char) :
    t.render ctx buf = ((t.render ctx []).1, buf ++ (t.render ctx []).2) := by
  match t with
  | Tag.paragraph =>
    simp only [Tag.render]
    rw [render_tag_append ctx (str "p") buf]
  | Tag.header n =>
    simp only [Tag.render]
    rw [render_tag_append ctx (str "h" ++ (Nat.repr n).data) buf]
  | Tag.codeBlock info =>
    simp only [Tag.render]
    rw [render_nested_tags_append ctx [str "pre", str "code"] buf]
  | Tag.footnoteDefinition i => simpa [Tag.render] using render_footnote_definition_append ctx i buf
  | Tag.rule => simp [Tag.render]
  | Tag.emphasis => simp [Tag.render]

theorem event_render_append (e : Event) (ctx : Context) (buf : List Char) :
    e.render ctx buf = (e.render ctx []).map (fun p => (p.1, buf ++ p.2)) := by
  match e with
  | Event.text s => simp [Event.render]
  | Event.html s => simp [Event.render]
  | Event.inlineHtml s => simp [Event.render]
  | Event.footnoteReference i =>
    simpa [Event.render] using render_footnote_reference_append ctx i buf
  | Event.start t => simp [Event.render]
  | Event.endTag t => simp [Event.render]
  | Event.softBreak => simp [Event.render]
  | Event.hardBreak => simp [Event.render]

mutual
theorem node_render_append : ∀ (n : Node) (ctx : Context) (buf : List Char),
    n.render ctx buf = (n.render ctx []).map (fun p => (p.1, buf ++ p.2))
  | Node.block t c, ctx, buf => by
    obtain ⟨A, o1, h1⟩ : ∃ A o1, ∀ b : List Char,
        t.render { ctx with tag_type := some TagType.opening } b = (A, b ++ o1) :=
      ⟨_, _, fun b => tag_render_append t _ b⟩
    obtain ⟨r, h2⟩ : ∃ r : Option (Context × List Char), ∀ b : List Char,
        Content.render c { A with tag_type := none } b = r.map (fun p => (p.1, b ++ p.2)) :=
      ⟨_, fun b => content_render_append c _ b⟩
    cases r with
    | none => simp [Node.render, h1, h2]
    | some p =>
      obtain ⟨B, o3, h3⟩ : ∃ B o3, ∀ b : List Char,
          t.render { p.1 with tag_type := some TagType.closing } b = (B, b ++ o3) :=
        ⟨_, _, fun b => tag_render_append t _ b⟩
      simp [Node.render, h1, h2, h3, List.append_assoc]
  | Node.item e, ctx, buf => event_render_append e ctx buf
theorem content_render_append : ∀ (c : Content) (ctx : Context) (buf : List Char),
    c.render ctx buf = (c.render ctx []).map (fun p => (p.1, buf ++ p.2))
  | Content.nil, ctx, buf => by simp [Content.render]
  | Content.cons n rest, ctx, buf => by
    simp only [Content.render]
    rw [node_render_append n ctx buf]
    cases hn : n.render ctx [] with
    | none => simp
    | some p =>
      simp only [Option.map_some']
      rw [content_render_append rest p.1 (buf ++ p.2), content_render_append rest p.1 p.2]
      cases rest.render p.1 [] with
      | none => simp
      | some q => simp [List.append_assoc]
end

theorem render_footnote_reference_tag_type (ctx : Context) (i buf : List Char) :
    (ctx.render_footnote_reference i buf).1.tag_type = ctx.tag_type := by
  simp only [Context.render_footnote_reference]
  exact get_footnote_index_tag_type ctx i

theorem event_render_tag_type (e : Event) (ctx : Context) (buf : List Char)
    (p : Context × List Char) (h : e.render ctx buf = some p) :
    p.1.tag_type = ctx.tag_type := by
  cases e with
  | text s => simp [Event.render] at h; subst h; rfl
  | html s => simp [Event.render] at h; subst h; rfl
  | inlineHtml s => simp [Event.render] at h; subst h; rfl
  | footnoteReference i =>
    simp [Event.render] at h
    subst h
    exact render_footnote_reference_tag_type ctx i buf
  | start t => simp [Event.render] at h
  | endTag t => simp [Event.render] at h
  | softBreak => simp [Event.render] at h
  | hardBreak => simp [Event.render] at h

theorem node_render_block_post (t : Tag) (c : Content) (ctx : Context) (buf : List Char)
    (p : Context × List Char) (h : Node.render (Node.block t c) ctx buf = some p) :
    p.1.tag_type = none := by
  simp only [Node.render] at h
  split at h
  · exact Option.noConfusion h
  · cases h; rfl

mutual
theorem node_render_preserves_none : ∀ (n : Node) (ctx : Context) (buf : List Char)
    (p : Context × List Char), ctx.tag_type = none → n.render ctx buf = some p →
    p.1.tag_type = none
  | Node.block t c, ctx, buf, p => fun _ h => node_render_block_post t c ctx buf p h
  | Node.item e, ctx, buf, p => fun hctx h => by
    simp only [Node.render] at h
    rw [event_render_tag_type e ctx buf p h]
    exact hctx
theorem content_render_preserves_none : ∀ (c : Content) (ctx : Context) (buf : List Char)
    (p : Context × List Char), ctx.tag_type = none → c.render ctx buf = some p →
    p.1.tag_type = none
  | Content.nil, ctx, buf, p => fun hctx h => by
    simp [Content.render] at h
    subst h
    exact hctx
  | Content.cons n rest, ctx, buf, p => fun hctx h => by
    simp only [Content.render] at h
    cases hn : n.render ctx buf with
    | none => rw [hn] at h; exact Option.noConfusion h
    | some q =>
      rw [hn] at h
      exact content_render_preserves_none rest q.1 q.2 p
        (node_render_preserves_none n ctx buf q hctx hn) h
end

theorem lookupId_append_some : ∀ (l l2 : List (List Char × Nat)) (i : List Char) (n : Nat),
    lookupId l i = some n → lookupId (l ++ l2) i = some n
  | [], _, _, _ => fun h => Option.noConfusion h
  | (k, v) :: rest, l2, i, n => fun h => by
    simp only [lookupId] at h ⊢
    split at h
    · simpa [*] using h
    · rw [if_neg (by assumption)]
      exact lookupId_append_some rest l2 i n h

theorem lookupId_append_self : ∀ (l : List (List Char × Nat)) (i : List Char) (v : Nat),
    lookupId l i = none → lookupId (l ++ [(i, v)]) i = some v
  | [], i, v => fun _ => by simp [lookupId]
  | (k, w) :: rest, i, v => fun h => by
    simp only [lookupId] at h ⊢
    split at h
    · exact Option.noConfusion h
    · rw [if_neg (by assumption)]
      exact lookupId_append_self rest i v h

theorem lookupId_append_other : ∀ (l : List (List Char × Nat)) (b x : List Char) (v : Nat),
    lookupId l b = none → b ≠ x → lookupId (l ++ [(x, v)]) b = none
  | [], b, x, v => fun _ hbx => by
    simp [lookupId]
    intro h
    exact absurd h.symm hbx
  | (k, w) :: rest, b, x, v => fun h hbx => by
    simp only [lookupId] at h ⊢
    split at h
    · exact Option.noConfusion h
    · rw [if_neg (by assumption)]
      exact lookupId_append_other rest b x v h hbx

theorem lookupId_some_mem : ∀ (l : List (List Char × Nat)) (i : List Char) (n : Nat),
    lookupId l i = some n → (i, n) ∈ l
  | [], _, _ => fun h => Option.noConfusion h
  | (k, v) :: rest, i, n => fun h => by
    simp only [lookupId] at h
    split at h
    · cases h
      simp [*]
    · exact List.mem_cons_of_mem _ (lookupId_some_mem rest i n h)

theorem gfi_preserves_some (ctx : Context) (x a : List Char) (n : Nat)
    (h : lookupId ctx.footnote_indices a = some n) :
    lookupId (ctx.get_footnote_index x).2.footnote_indices a = some n := by
  simp only [Context.get_footnote_index]
  cases hx : lookupId ctx.footnote_indices x with
  | some m => exact h
  | none => exact lookupId_append_some _ _ a n h

theorem processIds_preserves_some : ∀ (ids : List (List Char)) (ctx : Context)
    (a : List Char) (n : Nat), lookupId ctx.footnote_indices a = some n →
    lookupId (processIds ctx ids).footnote_indices a = some n
  | [], ctx, a, n => fun h => h
  | x :: ids, ctx, a, n => fun h =>
    processIds_preserves_some ids _ a n (gfi_preserves_some ctx x a n h)

theorem gfi_none_other (ctx : Context) (x b : List Char)
    (h : lookupId ctx.footnote_indices b = none) (hbx : b ≠ x) :
    lookupId (ctx.get_footnote_index x).2.footnote_indices b = none := by
  simp only [Context.get_footnote_index]
  cases hx : lookupId ctx.footnote_indices x with
  | some m => exact h
  | none => exact lookupId_append_other _ b x _ h hbx

theorem processIds_none : ∀ (ids : List (List Char)) (ctx : Context) (b : List Char),
    lookupId ctx.footnote_indices b = none → b ∉ ids →
    lookupId (processIds ctx ids).footnote_indices b = none
  | [], ctx, b => fun h _ => h
  | x :: ids, ctx, b => fun h hmem => by
    have hbx : b ≠ x := fun hbx => hmem (by simp [hbx])
    exact processIds_none ids _ b (gfi_none_other ctx x b h hbx)
      (fun hb => hmem (List.mem_cons_of_mem _ hb))

theorem gfi_inserts (ctx : Context) (x : List Char)
    (h : lookupId ctx.footnote_indices x = none) :
    lookupId (ctx.get_footnote_index x).2.footnote_indices x
      = some (ctx.footnote_indices.length + 1) := by
  simp only [Context.get_footnote_index, h]
  exact lookupId_append_self _ x _ h

theorem gfi_len_mono (ctx : Context) (x : List Char) :
    ctx.footnote_indices.length ≤ (ctx.get_footnote_index x).2.footnote_indices.length := by
  simp only [Context.get_footnote_index]
  cases lookupId ctx.footnote_indices x with
  | some m => exact Nat.le_refl _
  | none => simp

theorem boundedIdx_new : BoundedIdx Context.new := by
  intro p hp
  simp [Context.new] at hp

theorem boundedIdx_gfi (ctx : Context) (x : List Char) (h : BoundedIdx ctx) :
    BoundedIdx (ctx.get_footnote_index x).2 := by
  intro p hp
  simp only [Context.get_footnote_index] at hp ⊢
  cases hx : lookupId ctx.footnote_indices x with
  | some m => rw [hx] at hp; exact h p hp
  | none =>
    rw [hx] at hp
    have hp2 : p ∈ ctx.footnote_indices ++ [(x, ctx.footnote_indices.length + 1)] := hp
    show p.2 ≤ (ctx.footnote_indices ++ [(x, ctx.footnote_indices.length + 1)]).length
    rcases List.mem_append.1 hp2 with hp3 | hp3
    · calc p.2 ≤ ctx.footnote_indices.length := h p hp3
        _ ≤ (ctx.footnote_indices ++ [(x, ctx.footnote_indices.length + 1)]).length := by simp
    · simp only [List.mem_singleton] at hp3
      subst hp3
      simp

theorem boundedIdx_processIds : ∀ (ids : List (List Char)) (ctx : Context),
    BoundedIdx ctx → BoundedIdx (processIds ctx ids)
  | [], ctx => fun h => h
  | x :: ids, ctx => fun h => boundedIdx_processIds ids _ (boundedIdx_gfi ctx x h)

theorem processIds_append : ∀ (u v : List (List Char)) (ctx : Context),
    processIds ctx (u ++ v) = processIds (processIds ctx u) v
  | [], v, ctx => rfl
  | x :: u, v, ctx => processIds_append u v _

theorem fresh_vs_processed : ∀ (ids : List (List Char)) (ctx : Context) (a b : List Char)
    (na : Nat), BoundedIdx ctx → lookupId ctx.footnote_indices a = some na →
    lookupId ctx.footnote_indices b = none → ∀ nb : Nat,
    lookupId (processIds ctx ids).footnote_indices b = some nb → na < nb
  | [], ctx, a, b, na => fun _ _ hb nb hnb => by
    simp only [processIds] at hnb
    rw [hb] at hnb
    exact Option.noConfusion hnb
  | x :: ids, ctx, a, b, na => fun hB ha hb nb hnb => by
    simp only [processIds] at hnb
    by_cases hbx : b = x
    · subst hbx
      have hbnew : lookupId (ctx.get_footnote_index b).2.footnote_indices b
          = some (ctx.footnote_indices.length + 1) := gfi_inserts ctx b hb
      have hfin := processIds_preserves_some ids (ctx.get_footnote_index b).2 b _ hbnew
      rw [hfin] at hnb
      have hval : ctx.footnote_indices.length + 1 = nb := Option.some.inj hnb
      have hmem := lookupId_some_mem _ a na ha
      have hle : na ≤ ctx.footnote_indices.length := hB (a, na) hmem
      omega
    · exact fresh_vs_processed ids _ a b na (boundedIdx_gfi ctx x hB)
        (gfi_preserves_some ctx x a na ha) (gfi_none_other ctx x b hb hbx) nb hnb

theorem char_toNat_ofNat_ascii : ∀ b : Nat, b < 128 → (Char.ofNat b).toNat = b := by
  decide

theorem escPieces_bytes_ascii : ∀ bs : List Nat, (∀ b ∈ bs, b < 128) →
    strBytes (escPieces bs) = specEscapeBytes bs
  | [] => fun _ => rfl
  | b :: rest => fun h => by
    rw [escPieces, strBytes_append,
      escPieces_bytes_ascii rest (fun x hx => h x (List.mem_cons_of_mem _ hx)),
      specEscapeBytes]
    congr 1
    have hb : b < 128 := h b (List.mem_cons_self _ _)
    by_cases h34 : b = 34
    · subst h34; rfl
    by_cases h38 : b = 38
    · subst h38; rfl
    by_cases h39 : b = 39
    · subst h39; rfl
    by_cases h60 : b = 60
    · subst h60; rfl
    by_cases h62 : b = 62
    · subst h62; rfl
    rw [escByte, if_neg h34, if_neg h38, if_neg h39, if_neg h60, if_neg h62,
      if_neg h34, if_neg h38, if_neg h39, if_neg h60, if_neg h62]
    have hc : (Char.ofNat b).toNat = b := char_toNat_ofNat_ascii b hb
    simp [strBytes, utf8Bytes, hc, hb]

/-- Claim C1, counterexample: with the direction flag `None`, `render_tag`
does not emit nothing — it emits the opening markup `<p>`. -/
theorem render_tag_none_emits_markup :
    Context.render_tag ⟨none, []⟩ (str "p") [] = str "<p>"
    ∧ str "<p>" ≠ ([] : List Char) := by
  refine ⟨rfl, by decide⟩

/-- Claim C1 (amended): `render_tag name` emits the literal text `<name>`
when the direction flag is `Opening`, `</name>` when it is `Closing`, and
also emits `<name>` when the flag is `None` (the Rust `_` arm of the
closer match covers both `Some(Opening)` and `None`, so the `None` case
behaves like `Opening` rather than emitting nothing). -/
theorem render_tag_direction_cases (fi : List (List Char × Nat)) (tag buf : List Char) :
    Context.render_tag ⟨some TagType.opening, fi⟩ tag buf = buf ++ str "<" ++ tag ++ str ">"
    ∧ Context.render_tag ⟨some TagType.closing, fi⟩ tag buf = buf ++ str "</" ++ tag ++ str ">"
    ∧ Context.render_tag ⟨none, fi⟩ tag buf = buf ++ str "<" ++ tag ++ str ">" := by
  have hsl : str "</" = str "<" ++ str "/" := rfl
  refine ⟨?_, ?_, ?_⟩
  · simp [Context.render_tag, List.append_assoc]
  · rw [hsl]
    simp [Context.render_tag, List.append_assoc]
  · simp [Context.render_tag, List.append_assoc]

/-- Claim C2, counterexample: escaping the one-character string `é`
(UTF-8 bytes `[195, 169]`, neither of them special) is not byte-for-byte:
the code writes each byte back as a character via `*c as char`, and the
`String` sink re-encodes those code points, producing the output bytes
`[195, 131, 194, 169]` instead of `[195, 169]`. -/
theorem escape_html_not_bytewise_identity :
    strBytes (escape_html [] (strBytes (str "é"))) ≠ specEscapeBytes (strBytes (str "é")) := by
  decide

/-- Claim C2 (amended): `escape_html` appends to the sink exactly the input
with the five single-byte substitutions, and every other byte of the input
re-emitted as one character whose code point is the byte's value.  At the
byte level this coincides with the claimed byte-for-byte copy exactly when
every input byte is ASCII (`< 128`); bytes `≥ 128` are re-encoded as two
UTF-8 bytes by the `String` sink. -/
theorem escape_html_char_level_spec :
    (∀ (buf : List Char) (bs : List Nat), escape_html buf bs = buf ++ escPieces bs)
    ∧ (∀ bs : List Nat, (∀ b ∈ bs, b < 128) →
        strBytes (escape_html [] bs) = specEscapeBytes bs) := by
  constructor
  · intro buf bs
    exact escape_html_eq_escPieces bs buf
  · intro bs h
    rw [escape_html_eq_escPieces bs [], List.nil_append]
    exact escPieces_bytes_ascii bs h

theorem escape_html_char_level_spec_witness :
    (∀ b ∈ strBytes (str "a<b\"'"), b < 128)
    ∧ strBytes (escape_html [] (strBytes (str "a<b\"'")))
        = specEscapeBytes (strBytes (str "a<b\"'")) :=
  ⟨by decide, escape_html_char_level_spec.2 (strBytes (str "a<b\"'")) (by decide)⟩

/-- Claim C3, counterexample: an `Item` whose event is `InlineHtml` — a
variant other than `Text`, `Html` and `FootnoteReference` — does not
abort: it renders successfully as verbatim passthrough. -/
theorem inline_html_item_renders_without_failure :
    Node.render (Node.item (Event.inlineHtml (str "x"))) Context.new []
      = some (Context.new, str "x") := by
  rfl

/-- Claim C3 (amended): an `Item` carrying a structural `Start`/`End`
marker, or any event variant other than `Text`, `Html`, `InlineHtml` and
`FootnoteReference` (i.e. `SoftBreak`/`HardBreak`), makes rendering
terminate with an unrecoverable failure (`unreachable!`/`panic!`,
modelled as `none`) rather than being skipped or coerced. -/
theorem unexpected_event_items_abort (ctx : Context) (buf : List Char) (t : Tag) :
    Node.render (Node.item (Event.start t)) ctx buf = none
    ∧ Node.render (Node.item (Event.endTag t)) ctx buf = none
    ∧ Node.render (Node.item Event.softBreak) ctx buf = none
    ∧ Node.render (Node.item Event.hardBreak) ctx buf = none := by
  refine ⟨rfl, rfl, rfl, rfl⟩

/-- Claim C6: `render_nested_tags` emits each name's opening tag in listed
order when the direction flag is `Opening`, each name's closing tag in
reverse listed order when `Closing`, and nothing when `None`; a
`CodeBlock` opens as `<pre><code>` and closes as `</code></pre>`. -/
theorem render_nested_tags_spec (fi : List (List Char × Nat)) (tags : List (List Char))
    (buf info : List Char) :
    Context.render_nested_tags ⟨some TagType.opening, fi⟩ tags buf = buf ++ openTagsMarkup tags
    ∧ Context.render_nested_tags ⟨some TagType.closing, fi⟩ tags buf
        = buf ++ closeTagsMarkup tags.reverse
    ∧ Context.render_nested_tags ⟨none, fi⟩ tags buf = buf
    ∧ Tag.render (Tag.codeBlock info) ⟨some TagType.opening, fi⟩ buf
        = (⟨some TagType.opening, fi⟩, buf ++ str "<pre><code>")
    ∧ Tag.render (Tag.codeBlock info) ⟨some TagType.closing, fi⟩ buf
        = (⟨some TagType.closing, fi⟩, buf ++ str "</code></pre>") := by
  refine ⟨?_, ?_, rfl, ?_, ?_⟩
  · simp only [Context.render_nested_tags]
    exact foldl_render_tag_opening fi tags buf
  · simp only [Context.render_nested_tags]
    exact foldl_render_tag_closing fi tags.reverse buf
  · simp only [Tag.render, Context.render_nested_tags]
    rw [foldl_render_tag_opening fi [str "pre", str "code"] buf]
    have h : openTagsMarkup [str "pre", str "code"] = str "<pre><code>" := by decide
    rw [h]
  · simp only [Tag.render, Context.render_nested_tags]
    rw [foldl_render_tag_closing fi ([str "pre", str "code"].reverse) buf]
    have h : closeTagsMarkup ([str "pre", str "code"].reverse) = str "</code></pre>" := by
      decide
    rw [h]

/-- Claim C7: rendering a `FootnoteDefinition(identifier)` tag emits, on
`Opening`, `<div class="footnote-definition" id="` + the HTML-escaped
identifier + `"><sup class="footnote-definition-label">` + the
identifier's footnote index in decimal + `</sup>` + a newline; on
`Closing`, exactly `</div>`; and nothing on `None`. -/
theorem render_footnote_definition_spec (fi : List (List Char × Nat)) (buf i : List Char) :
    Context.render_footnote_definition ⟨some TagType.opening, fi⟩ i buf
      = ((Context.get_footnote_index ⟨some TagType.opening, fi⟩ i).2,
         buf ++ str "<div class=\"footnote-definition\" id=\""
             ++ escape_html [] (strBytes i)
             ++ str "\"><sup class=\"footnote-definition-label\">"
             ++ (Nat.repr (Context.get_footnote_index ⟨some TagType.opening, fi⟩ i).1).data
             ++ str "</sup>\n")
    ∧ Context.render_footnote_definition ⟨some TagType.closing, fi⟩ i buf
        = (⟨some TagType.closing, fi⟩, buf ++ str "</div>")
    ∧ Context.render_footnote_definition ⟨none, fi⟩ i buf = (⟨none, fi⟩, buf) := by
  refine ⟨?_, rfl, rfl⟩
  simp [Context.render_footnote_definition, escape_html_eq_escPieces, List.append_assoc]

/-- Claim C4: within one render call, `get_footnote_index` assigns a
previously-unseen identifier the index (number of identifiers recorded
before the call) + 1, records the mapping, returns the recorded value on
every repeat call, keeps recorded values stable under any later calls,
and assigns strictly increasing indices in first-seen order: if `a` is
first seen before `b`, then `index(a) < index(b)`. -/
theorem get_footnote_index_spec :
    (∀ (ctx : Context) (i : List Char),
        lookupId ctx.footnote_indices i = none →
          (ctx.get_footnote_index i).1 = ctx.footnote_indices.length + 1
          ∧ lookupId (ctx.get_footnote_index i).2.footnote_indices i
              = some (ctx.footnote_indices.length + 1))
    ∧ (∀ (ctx : Context) (i : List Char) (n : Nat),
        lookupId ctx.footnote_indices i = some n → ctx.get_footnote_index i = (n, ctx))
    ∧ (∀ (ctx : Context) (ids : List (List Char)) (i : List Char) (n : Nat),
        lookupId ctx.footnote_indices i = some n →
          lookupId (processIds ctx ids).footnote_indices i = some n)
    ∧ (∀ (l1 l2 : List (List Char)) (a b : List Char) (na nb : Nat),
        a ∉ l1 → b ∉ l1 → b ≠ a →
        lookupId (processIds Context.new (l1 ++ a :: l2)).footnote_indices a = some na →
        lookupId (processIds Context.new (l1 ++ a :: l2)).footnote_indices b = some nb →
        na < nb) := by
  refine ⟨?_, ?_, ?_, ?_⟩
  · intro ctx i h
    exact ⟨by simp [Context.get_footnote_index, h], gfi_inserts ctx i h⟩
  · intro ctx i n h
    simp [Context.get_footnote_index, h]
  · intro ctx ids i n h
    exact processIds_preserves_some ids ctx i n h
  · intro l1 l2 a b na nb ha1 hb1 hba hna hnb
    have hsplit : processIds Context.new (l1 ++ a :: l2)
        = processIds ((processIds Context.new l1).get_footnote_index a).2 l2 := by
      rw [processIds_append l1 (a :: l2) Context.new]
      rfl
    rw [hsplit] at hna hnb
    have h0a : lookupId (processIds Context.new l1).footnote_indices a = none :=
      processIds_none l1 Context.new a rfl ha1
    have h0b : lookupId (processIds Context.new l1).footnote_indices b = none :=
      processIds_none l1 Context.new b rfl hb1
    have hA := gfi_inserts (processIds Context.new l1) a h0a
    have hB := gfi_none_other (processIds Context.new l1) a b h0b hba
    have hBnd : BoundedIdx ((processIds Context.new l1).get_footnote_index a).2 :=
      boundedIdx_gfi _ a (boundedIdx_processIds l1 Context.new boundedIdx_new)
    have hna2 := processIds_preserves_some l2
      ((processIds Context.new l1).get_footnote_index a).2 a _ hA
    rw [hna2] at hna
    have hval : (processIds Context.new l1).footnote_indices.length + 1 = na :=
      Option.some.inj hna
    exact fresh_vs_processed l2 _ a b na hBnd (hval ▸ hA) hB nb hnb

theorem get_footnote_index_spec_witness :
    lookupId Context.new.footnote_indices (str "x") = none
    ∧ (Context.new.get_footnote_index (str "x")).1 = Context.new.footnote_indices.length + 1
    ∧ (str "a") ∉ ([] : List (List Char))
    ∧ (str "b") ∉ ([] : List (List Char))
    ∧ str "b" ≠ str "a"
    ∧ lookupId (processIds Context.new ([] ++ str "a" :: [str "b"])).footnote_indices (str "a")
        = some 1
    ∧ lookupId (processIds Context.new ([] ++ str "a" :: [str "b"])).footnote_indices (str "b")
        = some 2
    ∧ 1 < 2 :=
  ⟨rfl, (get_footnote_index_spec.1 Context.new (str "x") rfl).1,
   by decide, by decide, by decide, by decide, by decide,
   get_footnote_index_spec.2.2.2 [] [str "b"] (str "a") (str "b") 1 2
     (by decide) (by decide) (by decide) (by decide) (by decide)⟩

/-- Claim C5: the output appended for a `Block` node (tag `t`, nested
content `c`) is, in order: `t`'s opening markup, the renderings of `c`'s
nodes in sequence order, `t`'s closing markup, then exactly one newline
character — no block contributes more than one trailing newline. -/
theorem block_render_structure :
    (∀ (ctx : Context) (buf : List Char) (t : Tag) (c : Content),
      Node.render (Node.block t c) ctx buf =
        (match Content.render c
            { (t.render { ctx with tag_type := some TagType.opening } []).1
              with tag_type := none } [] with
         | none => none
         | some q =>
           some ({ (t.render { q.1 with tag_type := some TagType.closing } []).1
                   with tag_type := none },
             buf ++ (t.render { ctx with tag_type := some TagType.opening } []).2
                 ++ q.2
                 ++ (t.render { q.1 with tag_type := some TagType.closing } []).2
                 ++ ['\n'])))
    ∧ (∀ (n : Node) (rest : Content) (ctx : Context) (buf : List Char),
      Content.render (Content.cons n rest) ctx buf =
        match n.render ctx buf with
        | none => none
        | some p => Content.render rest p.1 p.2) := by
  constructor
  · intro ctx buf t c
    obtain ⟨A, o1, h1⟩ : ∃ A o1, ∀ b : List Char,
        t.render { ctx with tag_type := some TagType.opening } b = (A, b ++ o1) :=
      ⟨_, _, fun b => tag_render_append t _ b⟩
    obtain ⟨r, h2⟩ : ∃ r : Option (Context × List Char), ∀ b : List Char,
        Content.render c { A with tag_type := none } b = r.map (fun p => (p.1, b ++ p.2)) :=
      ⟨_, fun b => content_render_append c _ b⟩
    cases r with
    | none => simp [Node.render, h1, h2]
    | some p =>
      obtain ⟨B, o3, h3⟩ : ∃ B o3, ∀ b : List Char,
          t.render { p.1 with tag_type := some TagType.closing } b = (B, b ++ o3) :=
        ⟨_, _, fun b => tag_render_append t _ b⟩
      simp [Node.render, h1, h2, h3, List.append_assoc]
  · intro n rest ctx buf
    rfl

/-- Claim C8: a block overwrites the direction flag on entry, so it never
observes a stale direction from an ancestor; after a block completes the
flag is `None`; and rendering any node or sequence entered with the flag
`None` leaves it `None`, so nested content and following nodes always
run with direction `None`. -/
theorem direction_flag_discipline :
    (∀ (ctx : Context) (d : Option TagType) (t : Tag) (c : Content) (buf : List Char),
        Node.render (Node.block t c) { ctx with tag_type := d } buf
          = Node.render (Node.block t c) ctx buf)
    ∧ (∀ (t : Tag) (c : Content) (ctx : Context) (buf : List Char) (p : Context × List Char),
        Node.render (Node.block t c) ctx buf = some p → p.1.tag_type = none)
    ∧ (∀ (n : Node) (ctx : Context) (buf : List Char) (p : Context × List Char),
        ctx.tag_type = none → n.render ctx buf = some p → p.1.tag_type = none)
    ∧ (∀ (c : Content) (ctx : Context) (buf : List Char) (p : Context × List Char),
        ctx.tag_type = none → c.render ctx buf = some p → p.1.tag_type = none) := by
  refine ⟨?_, ?_, ?_, ?_⟩
  · intro ctx d t c buf
    rfl
  · intro t c ctx buf p h
    exact node_render_block_post t c ctx buf p h
  · intro n ctx buf p hctx h
    exact node_render_preserves_none n ctx buf p hctx h
  · intro c ctx buf p hctx h
    exact content_render_preserves_none c ctx buf p hctx h

theorem direction_flag_discipline_witness :
    Node.render (Node.block Tag.paragraph Content.nil) Context.new []
        = some (Context.new, str "<p></p>\n")
    ∧ Context.new.tag_type = none
    ∧ Node.render (Node.item (Event.text (str "a"))) Context.new []
        = some (Context.new, str "a")
    ∧ (Context.new, str "<p></p>\n").1.tag_type = none
    ∧ (Context.new, str "a").1.tag_type = none :=
  ⟨by decide, rfl, by decide,
   direction_flag_discipline.2.1 Tag.paragraph Content.nil Context.new []
     (Context.new, str "<p></p>\n") (by decide),
   direction_flag_discipline.2.2.1 (Node.item (Event.text (str "a"))) Context.new []
     (Context.new, str "a") rfl (by decide)⟩

/-- Claim C9: rendering the same `Content` sequence via `into_html`, each
time with a fresh context into its own buffer, appends byte-identical
output to both buffers — the appended output is a deterministic function
of the node sequence alone. -/
theorem into_html_deterministic (c : Content) (buf1 buf2 : List Char) :
    (into_html c buf1).map (fun b => b.drop buf1.length)
      = (into_html c buf2).map (fun b => b.drop buf2.length) := by
  simp only [into_html]
  rw [content_render_append c Context.new buf1, content_render_append c Context.new buf2]
  cases Content.render c Context.new [] with
  | none => rfl
  | some p => simp [List.drop_left]

/-- Claim C10: `into_html` and every render step within it only appends to
the output buffer — the buffer's contents before the call are an
unchanged prefix of its contents after the call returns. -/
theorem into_html_append_only :
    (∀ (n : Node) (ctx : Context) (buf : List Char) (p : Context × List Char),
        n.render ctx buf = some p → List.IsPrefix buf p.2)
    ∧ (∀ (c : Content) (buf out : List Char),
        into_html c buf = some out → List.IsPrefix buf out) := by
  constructor
  · intro n ctx buf p h
    rw [node_render_append n ctx buf] at h
    cases hn : n.render ctx [] with
    | none => rw [hn] at h; exact Option.noConfusion h
    | some q =>
      rw [hn] at h
      simp only [Option.map_some'] at h
      cases h
      exact List.prefix_append buf q.2
  · intro c buf out h
    simp only [into_html] at h
    rw [content_render_append c Context.new buf] at h
    cases hc : Content.render c Context.new [] with
    | none => rw [hc] at h; exact Option.noConfusion h
    | some q =>
      rw [hc] at h
      simp only [Option.map_some'] at h
      cases h
      exact List.prefix_append buf q.2

theorem into_html_append_only_witness :
    Node.render (Node.item (Event.text (str "hi"))) Context.new (str "x")
        = some (Context.new, str "xhi")
    ∧ List.IsPrefix (str "x") (str "xhi") :=
  ⟨by decide,
   into_html_append_only.1 (Node.item (Event.text (str "hi"))) Context.new (str "x")
     (Context.new, str "xhi") (by decide)⟩
